import Mathlib

/-!
Verification of the AdsPower manager's Task Scheduler / Flow Execution Engine /
Resource Lease Pool specification against the repository's code.

The repository ships the frontend (task list component, task service, websocket
store and hook), deployment configuration, and the project design document
`src/AdsPower_Project_Specification.md`.  The scheduler/interpreter/lease-pool
core itself is not part of the source tree, so those components are modelled
from the specification text; each such definition carries a doc comment
starting with `Modelled from the spec:`.  The websocket store (`part_008`),
the websocket reconnect logic (`part_009`) and the `exponential_backoff`
function (design document §5.1) are embedded directly from the source.
-/

namespace XM

/-! ## Retry/Backoff Controller (spec §4.4) -/

inductive Classification where
  | transient
  | permanent
deriving DecidableEq, Repr

inductive Verdict where
  | terminate
  | retry (delay : ℚ) (newRetryCount : ℕ)
deriving DecidableEq, Repr

/-- Modelled from the spec: the Retry/Backoff Controller's `decide` (§4.4) is
not under `src/` (the repository ships only its frontend callers).  Per the
spec: if classification is `permanent` or `retry_count >= max_retries`, return
terminate; otherwise return retry with delay
`min(base_delay * 2^retry_count, max_delay)` plus bounded random jitter, and
increment `retry_count`.  The random jitter draw is passed in explicitly. -/
def decide (c : Classification) (retryCount maxRetries : ℕ)
    (baseDelay maxDelay jitter : ℚ) : Verdict :=
  if c = .permanent ∨ maxRetries ≤ retryCount then
    .terminate
  else
    .retry (min (baseDelay * 2 ^ retryCount) maxDelay + jitter) (retryCount + 1)

/-- The verdict kind (retry vs terminate) of a decision. -/
def isTerminate : Verdict → Bool
  | .terminate => true
  | .retry _ _ => false

/-- `exponential_backoff` from `src/AdsPower_Project_Specification.md` §5.1:
`delay = min(base_delay * (2 ** attempt), max_delay)`;
`jitter = random.uniform(0, 0.1) * delay`; returns `delay + jitter`.
The random draw `random.uniform(0, 0.1)` is passed in as the argument `u`
(so the caller supplies `0 ≤ u ≤ 1/10`). -/
def exponential_backoff (attempt : ℕ) (base_delay max_delay u : ℚ) : ℚ :=
  let delay := min (base_delay * 2 ^ attempt) max_delay
  let jitter := u * delay
  delay + jitter

/-- C2: `decide` returns terminate exactly when the classification is permanent
or `retry_count >= max_retries`; a permanent error terminates regardless of
`retry_count`; in every other case `decide` returns retry and increments the
retry count. -/
theorem decide_terminate_iff (c : Classification) (retryCount maxRetries : ℕ)
    (baseDelay maxDelay jitter : ℚ) :
    (decide c retryCount maxRetries baseDelay maxDelay jitter = .terminate ↔
      c = .permanent ∨ maxRetries ≤ retryCount) ∧
    decide .permanent retryCount maxRetries baseDelay maxDelay jitter = .terminate ∧
    (c = .transient → retryCount < maxRetries →
      decide c retryCount maxRetries baseDelay maxDelay jitter =
        .retry (min (baseDelay * 2 ^ retryCount) maxDelay + jitter) (retryCount + 1)) := by
  refine ⟨?_, ?_, ?_⟩
  · constructor
    · intro h
      by_contra hc
      rw [decide, if_neg hc] at h
      exact Verdict.noConfusion h
    · intro h
      rw [decide, if_pos h]
  · rw [decide, if_pos (Or.inl rfl)]
  · intro hc hlt
    rw [decide, if_neg]
    rintro (h | h)
    · rw [hc] at h; exact Classification.noConfusion h
    · omega

/-- Witness for C2 at a concrete input: a transient error with
`retry_count = 0 < 2 = max_retries` yields a retry with incremented count. -/
theorem decide_terminate_iff_witness :
    decide .transient 0 2 1 32 0 = .retry (min ((1 : ℚ) * 2 ^ 0) 32 + 0) 1 :=
  (decide_terminate_iff .transient 0 2 1 32 0).2.2 rfl (by norm_num)

/-- C3: the backoff delay equals `min(base_delay * 2^retry_count, max_delay)`
plus the bounded jitter `u * min(...)`; for a fixed jitter draw it is
non-decreasing in the retry count, and it never exceeds
`max_delay` plus the jitter bound `max_delay / 10`. -/
theorem exponential_backoff_spec (base_delay max_delay u : ℚ)
    (hb : 0 ≤ base_delay) (hu0 : 0 ≤ u) (hu : u ≤ 1 / 10) :
    (∀ m n : ℕ, m ≤ n →
      exponential_backoff m base_delay max_delay u ≤
        exponential_backoff n base_delay max_delay u) ∧
    (∀ n : ℕ, exponential_backoff n base_delay max_delay u =
      min (base_delay * 2 ^ n) max_delay + u * min (base_delay * 2 ^ n) max_delay) ∧
    (0 ≤ max_delay → ∀ n : ℕ,
      exponential_backoff n base_delay max_delay u ≤ max_delay + max_delay / 10) := by
  refine ⟨?_, fun n => rfl, ?_⟩
  · intro m n hmn
    have hpow : base_delay * 2 ^ m ≤ base_delay * 2 ^ n := by
      apply mul_le_mul_of_nonneg_left _ hb
      exact pow_le_pow_right₀ (by norm_num) hmn
    have hmin : min (base_delay * 2 ^ m) max_delay ≤ min (base_delay * 2 ^ n) max_delay :=
      min_le_min hpow le_rfl
    have hj : u * min (base_delay * 2 ^ m) max_delay ≤
        u * min (base_delay * 2 ^ n) max_delay :=
      mul_le_mul_of_nonneg_left hmin hu0
    exact add_le_add hmin hj
  · intro hM n
    have hle : min (base_delay * 2 ^ n) max_delay ≤ max_delay := min_le_right _ _
    have hnn : 0 ≤ min (base_delay * 2 ^ n) max_delay :=
      le_min (mul_nonneg hb (by positivity)) hM
    have hj : u * min (base_delay * 2 ^ n) max_delay ≤ max_delay / 10 := by
      calc u * min (base_delay * 2 ^ n) max_delay
          ≤ (1 / 10) * max_delay := by
            apply mul_le_mul hu hle hnn (by norm_num)
        _ = max_delay / 10 := by ring
    exact add_le_add hle hj

/-- Witness for C3 at the source defaults `base_delay = 1`, `max_delay = 32`
and the maximal jitter draw `u = 1/10`. -/
theorem exponential_backoff_spec_witness :
    exponential_backoff 3 1 32 (1 / 10) ≤ exponential_backoff 4 1 32 (1 / 10) ∧
    exponential_backoff 4 1 32 (1 / 10) =
      min ((1 : ℚ) * 2 ^ 4) 32 + (1 / 10) * min ((1 : ℚ) * 2 ^ 4) 32 ∧
    exponential_backoff 9 1 32 (1 / 10) ≤ 32 + 32 / 10 :=
  ⟨(exponential_backoff_spec 1 32 (1 / 10) (by norm_num) (by norm_num)
      (by norm_num)).1 3 4 (by norm_num),
   (exponential_backoff_spec 1 32 (1 / 10) (by norm_num) (by norm_num)
      (by norm_num)).2.1 4,
   (exponential_backoff_spec 1 32 (1 / 10) (by norm_num) (by norm_num)
      (by norm_num)).2.2 (by norm_num) 9⟩

/-- C4: the retry verdict is a pure function of
`(classification, retry_count, max_retries)`: any two invocations with the same
triple — whatever the configured delays or the jitter draw — produce the same
retry-vs-terminate verdict, so there is no hidden state. -/
theorem decide_verdict_pure (c : Classification) (retryCount maxRetries : ℕ)
    (b₁ M₁ j₁ b₂ M₂ j₂ : ℚ) :
    isTerminate (decide c retryCount maxRetries b₁ M₁ j₁) =
      isTerminate (decide c retryCount maxRetries b₂ M₂ j₂) := by
  by_cases h : c = .permanent ∨ maxRetries ≤ retryCount
  · rw [decide, if_pos h, decide, if_pos h]
  · rw [decide, if_neg h, decide, if_neg h]; rfl

/-! ## Resource Lease Pool (spec §4.3) -/

structure Lease where
  envId : ℕ
  taskId : ℕ
  handle : ℕ
deriving DecidableEq, Repr

structure PoolState where
  leases : List Lease
  idle : List (ℕ × ℕ)
  nextHandle : ℕ
deriving DecidableEq, Repr

def initPool : PoolState := ⟨[], [], 0⟩

/-- Modelled from the spec: the Resource Lease Pool is not under `src/`.
`acquire(environmentId, taskId, timeout)` (§4.3) blocks until no other lease
holds the environment — modelled by returning `none` while a lease on that
environment exists (the caller is suspended or times out, the pool is
unchanged) — then creates a lease, reusing a pooled idle instance for the
environment if one exists, else requesting a fresh instance handle (modelled
by the `nextHandle` counter standing for the external collaborator handing
out a handle not currently in use). -/
def acquire (env task : ℕ) (s : PoolState) : Option (ℕ × PoolState) :=
  if s.leases.any (fun l => l.envId == env) then none
  else
    match s.idle.find? (fun p => p.1 == env) with
    | some p =>
        some (p.2, { s with leases := ⟨env, task, p.2⟩ :: s.leases,
                            idle := s.idle.filter (fun q => !(q == p)) })
    | none =>
        some (s.nextHandle,
          { s with leases := ⟨env, task, s.nextHandle⟩ :: s.leases,
                   nextHandle := s.nextHandle + 1 })

/-- Modelled from the spec: `release(environmentId, taskId)` (§4.3) destroys
the lease and returns the instance to an idle pool slot (kept warm) unless the
instance reported a crash. -/
def release (env task : ℕ) (crashed : Bool) (s : PoolState) : PoolState :=
  match s.leases.find? (fun l => l.envId == env && l.taskId == task) with
  | none => s
  | some l =>
      { s with
        leases := s.leases.filter (fun k => !(k.envId == env && k.taskId == task)),
        idle := if crashed then s.idle else (env, l.handle) :: s.idle }

/-- Modelled from the spec: `invalidate(environmentId)` (§4.3) forces teardown
of the environment's instance and clears the lease so a later `acquire`
creates fresh. -/
def invalidate (env : ℕ) (s : PoolState) : PoolState :=
  { s with leases := s.leases.filter (fun l => !(l.envId == env)),
           idle := s.idle.filter (fun p => !(p.1 == env)) }

inductive PoolOp where
  | acquireOp (env task : ℕ)
  | releaseOp (env task : ℕ) (crashed : Bool)
  | invalidateOp (env : ℕ)
deriving DecidableEq, Repr

def applyPoolOp (s : PoolState) (op : PoolOp) : PoolState :=
  match op with
  | .acquireOp e t =>
      match acquire e t s with
      | none => s
      | some (_, s') => s'
  | .releaseOp e t c => release e t c s
  | .invalidateOp e => invalidate e s

def runPool (ops : List PoolOp) : PoolState := ops.foldl applyPoolOp initPool

/-- All instance handles currently referenced by the pool: handles bound to
leases followed by warm idle handles. -/
def handlesOf (s : PoolState) : List ℕ := s.leases.map Lease.handle ++ s.idle.map Prod.snd

/-- Pool consistency: lease environments are pairwise distinct, every handle in
the pool occurs once, and handles are below the fresh-handle counter. -/
def PoolInv (s : PoolState) : Prop :=
  s.leases.Pairwise (fun a b => a.envId ≠ b.envId) ∧
  (handlesOf s).Nodup ∧
  ∀ x ∈ handlesOf s, x < s.nextHandle

lemma poolInv_init : PoolInv initPool :=
  ⟨List.Pairwise.nil, List.nodup_nil, by intro x hx; simp [handlesOf, initPool] at hx⟩

lemma acquire_busy {s : PoolState} {e : ℕ} (t : ℕ)
    (hb : s.leases.any (fun l => l.envId == e) = true) :
    acquire e t s = none := by
  rw [acquire, if_pos hb]

lemma acquire_idle {s : PoolState} {e : ℕ} (t : ℕ) {p : ℕ × ℕ}
    (hb : ¬ s.leases.any (fun l => l.envId == e) = true)
    (hfind : s.idle.find? (fun p => p.1 == e) = some p) :
    acquire e t s = some (p.2,
      ⟨⟨e, t, p.2⟩ :: s.leases, s.idle.filter (fun q => !(q == p)), s.nextHandle⟩) := by
  rw [acquire, if_neg hb, hfind]

lemma acquire_fresh {s : PoolState} {e : ℕ} (t : ℕ)
    (hb : ¬ s.leases.any (fun l => l.envId == e) = true)
    (hfind : s.idle.find? (fun p => p.1 == e) = none) :
    acquire e t s = some (s.nextHandle,
      ⟨⟨e, t, s.nextHandle⟩ :: s.leases, s.idle, s.nextHandle + 1⟩) := by
  rw [acquire, if_neg hb, hfind]

lemma release_found {s : PoolState} {e t : ℕ} (c : Bool) {l : Lease}
    (hfind : s.leases.find? (fun l => l.envId == e && l.taskId == t) = some l) :
    release e t c s =
      ⟨s.leases.filter (fun k => !(k.envId == e && k.taskId == t)),
       if c then s.idle else (e, l.handle) :: s.idle, s.nextHandle⟩ := by
  rw [release, hfind]

lemma release_missing {s : PoolState} {e t : ℕ} (c : Bool)
    (hfind : s.leases.find? (fun l => l.envId == e && l.taskId == t) = none) :
    release e t c s = s := by
  rw [release, hfind]

lemma poolInv_acquire (s : PoolState) (e t : ℕ) (h : PoolInv s) :
    PoolInv (applyPoolOp s (.acquireOp e t)) := by
  obtain ⟨h1, h2, h3⟩ := h
  show PoolInv (match acquire e t s with | none => s | some (_, s') => s')
  by_cases hb : s.leases.any (fun l => l.envId == e) = true
  · rw [acquire_busy t hb]; exact ⟨h1, h2, h3⟩
  · have henv : ∀ l ∈ s.leases, l.envId ≠ e := by
      intro l hl hle
      exact hb (List.any_eq_true.mpr ⟨l, hl, by simp [hle]⟩)
    cases hfind : s.idle.find? (fun p => p.1 == e) with
    | none =>
      rw [acquire_fresh t hb hfind]
      show PoolInv ⟨⟨e, t, s.nextHandle⟩ :: s.leases, s.idle, s.nextHandle + 1⟩
      refine ⟨?_, ?_, ?_⟩
      · refine List.pairwise_cons.mpr ⟨?_, h1⟩
        intro l hl
        exact (henv l hl).symm
      · have hnn : s.nextHandle ∉ handlesOf s := fun hmem => lt_irrefl _ (h3 _ hmem)
        simp only [handlesOf, List.map_cons, List.cons_append, List.nodup_cons]
        exact ⟨hnn, h2⟩
      · intro x hx
        simp only [handlesOf, List.map_cons, List.cons_append, List.mem_cons,
          List.mem_append] at hx
        rcases hx with rfl | hx | hx
        · show s.nextHandle < s.nextHandle + 1
          omega
        · exact Nat.lt_succ_of_lt (h3 x (List.mem_append_left _ hx))
        · exact Nat.lt_succ_of_lt (h3 x (List.mem_append_right _ hx))
    | some p =>
      have hpmem : p ∈ s.idle := List.mem_of_find?_eq_some hfind
      have hidle_nodup : (s.idle.map Prod.snd).Nodup :=
        (List.nodup_append.mp h2).2.1
      have hdisj : (s.leases.map Lease.handle).Disjoint (s.idle.map Prod.snd) :=
        (List.nodup_append.mp h2).2.2
      have hlease_nodup : (s.leases.map Lease.handle).Nodup :=
        (List.nodup_append.mp h2).1
      have hsubf : (s.idle.filter (fun q => !(q == p))).Sublist s.idle :=
        List.filter_sublist _
      rw [acquire_idle t hb hfind]
      show PoolInv ⟨⟨e, t, p.2⟩ :: s.leases, s.idle.filter (fun q => !(q == p)),
        s.nextHandle⟩
      refine ⟨?_, ?_, ?_⟩
      · refine List.pairwise_cons.mpr ⟨?_, h1⟩
        intro l hl
        exact (henv l hl).symm
      · have hfilter_nodup : ((s.idle.filter (fun q => !(q == p))).map Prod.snd).Nodup :=
          hidle_nodup.sublist (hsubf.map _)
        have hp2_not_lease : p.2 ∉ s.leases.map Lease.handle := by
          intro hmem
          exact hdisj hmem (List.mem_map_of_mem _ hpmem)
        have hp2_not_filter : p.2 ∉ (s.idle.filter (fun q => !(q == p))).map Prod.snd := by
          intro hmem
          obtain ⟨q, hq, hq2⟩ := List.mem_map.mp hmem
          obtain ⟨hqmem, hqne⟩ := List.mem_filter.mp hq
          have hqp : q = p := List.inj_on_of_nodup_map hidle_nodup hqmem hpmem hq2
          simp [hqp] at hqne
        simp only [handlesOf, List.map_cons, List.cons_append, List.nodup_cons]
        refine ⟨?_, ?_⟩
        · intro hmem
          rcases List.mem_append.mp hmem with hx | hx
          · exact hp2_not_lease hx
          · exact hp2_not_filter hx
        · rw [List.nodup_append]
          refine ⟨hlease_nodup, hfilter_nodup, ?_⟩
          intro x hx hmem
          exact hdisj hx ((hsubf.map Prod.snd).mem hmem)
      · intro x hx
        simp only [handlesOf, List.map_cons, List.cons_append, List.mem_cons,
          List.mem_append] at hx
        rcases hx with rfl | hx | hx
        · exact h3 _ (List.mem_append_right _ (List.mem_map_of_mem _ hpmem))
        · exact h3 _ (List.mem_append_left _ hx)
        · obtain ⟨q, hq, hq2⟩ := List.mem_map.mp hx
          exact hq2 ▸ h3 _ (List.mem_append_right _
            (List.mem_map_of_mem _ (hsubf.mem hq)))

lemma poolInv_release (s : PoolState) (e t : ℕ) (c : Bool) (h : PoolInv s) :
    PoolInv (applyPoolOp s (.releaseOp e t c)) := by
  obtain ⟨h1, h2, h3⟩ := h
  show PoolInv (release e t c s)
  cases hfind : s.leases.find? (fun l => l.envId == e && l.taskId == t) with
  | none => rw [release_missing c hfind]; exact ⟨h1, h2, h3⟩
  | some l =>
    have hlmem : l ∈ s.leases := List.mem_of_find?_eq_some hfind
    have hlpred : l.envId = e ∧ l.taskId = t := by
      have h0 := List.find?_some hfind
      simpa using h0
    have hsubl : (s.leases.filter (fun k => !(k.envId == e && k.taskId == t))).Sublist
        s.leases := List.filter_sublist _
    have hlease_nodup : (s.leases.map Lease.handle).Nodup :=
      (List.nodup_append.mp h2).1
    have hidle_nodup : (s.idle.map Prod.snd).Nodup :=
      (List.nodup_append.mp h2).2.1
    have hdisj : (s.leases.map Lease.handle).Disjoint (s.idle.map Prod.snd) :=
      (List.nodup_append.mp h2).2.2
    have hfnodup : ((s.leases.filter
        (fun k => !(k.envId == e && k.taskId == t))).map Lease.handle).Nodup :=
      hlease_nodup.sublist (hsubl.map _)
    rw [release_found c hfind]
    refine ⟨h1.sublist hsubl, ?_, ?_⟩
    · cases c with
      | true =>
        show ((s.leases.filter (fun k => !(k.envId == e && k.taskId == t))).map
          Lease.handle ++ s.idle.map Prod.snd).Nodup
        rw [List.nodup_append]
        exact ⟨hfnodup, hidle_nodup, fun x hx => hdisj ((hsubl.map _).mem hx)⟩
      | false =>
        show ((s.leases.filter (fun k => !(k.envId == e && k.taskId == t))).map
          Lease.handle ++ l.handle :: s.idle.map Prod.snd).Nodup
        rw [List.nodup_append]
        refine ⟨hfnodup, ?_, ?_⟩
        · refine List.nodup_cons.mpr ⟨?_, hidle_nodup⟩
          intro hmem
          exact hdisj (List.mem_map_of_mem _ hlmem) hmem
        · intro x hx
          obtain ⟨k, hk, hk2⟩ := List.mem_map.mp hx
          obtain ⟨hkmem, hkpred⟩ := List.mem_filter.mp hk
          intro hmem
          rcases List.mem_cons.mp hmem with hxl | hxidle
          · -- x = l.handle, but k ≠ l and lease handles are distinct
            have hkne : ¬ k.envId = e ∨ ¬ k.taskId = t := by simpa using hkpred
            have hkl : k ≠ l := by
              intro hkl
              rcases hkne with hk1 | hk1
              · exact hk1 (hkl ▸ hlpred.1)
              · exact hk1 (hkl ▸ hlpred.2)
            have hhandle : k.handle = l.handle := by rw [hk2, hxl]
            exact hkl (List.inj_on_of_nodup_map hlease_nodup hkmem hlmem hhandle)
          · exact hdisj (hk2 ▸ List.mem_map_of_mem _ hkmem) hxidle
    · intro x hx
      cases c with
      | true =>
        have hx' : x ∈ (s.leases.filter (fun k => !(k.envId == e && k.taskId == t))).map
            Lease.handle ++ s.idle.map Prod.snd := hx
        rcases List.mem_append.mp hx' with hy | hy
        · exact h3 _ (List.mem_append_left _ ((hsubl.map _).mem hy))
        · exact h3 _ (List.mem_append_right _ hy)
      | false =>
        have hx' : x ∈ (s.leases.filter (fun k => !(k.envId == e && k.taskId == t))).map
            Lease.handle ++ l.handle :: s.idle.map Prod.snd := hx
        rcases List.mem_append.mp hx' with hy | hy
        · exact h3 _ (List.mem_append_left _ ((hsubl.map _).mem hy))
        · rcases List.mem_cons.mp hy with rfl | hy
          · exact h3 _ (List.mem_append_left _ (List.mem_map_of_mem _ hlmem))
          · exact h3 _ (List.mem_append_right _ hy)

lemma poolInv_invalidate (s : PoolState) (e : ℕ) (h : PoolInv s) :
    PoolInv (applyPoolOp s (.invalidateOp e)) := by
  obtain ⟨h1, h2, h3⟩ := h
  show PoolInv (invalidate e s)
  have hsubl : (s.leases.filter (fun l => !(l.envId == e))).Sublist s.leases :=
    List.filter_sublist _
  have hsubi : (s.idle.filter (fun p => !(p.1 == e))).Sublist s.idle :=
    List.filter_sublist _
  have hsub : handlesOf (invalidate e s) |>.Sublist (handlesOf s) :=
    List.Sublist.append (hsubl.map _) (hsubi.map _)
  exact ⟨h1.sublist hsubl, h2.sublist hsub, fun x hx => h3 x (hsub.mem hx)⟩

lemma poolInv_step (s : PoolState) (op : PoolOp) (h : PoolInv s) :
    PoolInv (applyPoolOp s op) := by
  cases op with
  | acquireOp e t => exact poolInv_acquire s e t h
  | releaseOp e t c => exact poolInv_release s e t c h
  | invalidateOp e => exact poolInv_invalidate s e h

lemma runPool_inv (ops : List PoolOp) : PoolInv (runPool ops) := by
  have key : ∀ (l : List PoolOp) (s : PoolState), PoolInv s →
      PoolInv (l.foldl applyPoolOp s) := by
    intro l
    induction l with
    | nil => intro s hs; exact hs
    | cons op l ih => intro s hs; exact ih _ (poolInv_step s op hs)
  exact key ops initPool poolInv_init

lemma length_filter_le_one_of_pairwise {α β : Type} [DecidableEq β] (f : α → β) :
    ∀ (l : List α), l.Pairwise (fun a b => f a ≠ f b) → ∀ e : β,
      (l.filter (fun x => f x == e)).length ≤ 1 := by
  intro l hl e
  induction l with
  | nil => simp
  | cons a l ih =>
    obtain ⟨ha, hl'⟩ := List.pairwise_cons.mp hl
    by_cases hae : f a = e
    · have hnil : l.filter (fun x => f x == e) = [] := by
        rw [List.filter_eq_nil_iff]
        intro b hb
        simp only [beq_iff_eq]
        intro hbe
        exact ha b hb (hae ▸ hbe ▸ rfl)
      simp [List.filter_cons, hae, hnil]
    · simpa [List.filter_cons, hae] using ih hl'

/-- C1: after any sequence of pool operations, each environment id has at most
one valid lease and no two leases hold the same browser-instance handle. -/
theorem pool_exclusive (ops : List PoolOp) :
    (∀ e : ℕ, ((runPool ops).leases.filter (fun l => l.envId == e)).length ≤ 1) ∧
    ((runPool ops).leases.map Lease.handle).Nodup := by
  obtain ⟨h1, h2, _⟩ := runPool_inv ops
  exact ⟨fun e => length_filter_le_one_of_pairwise Lease.envId _ h1 e,
    (List.nodup_append.mp h2).1⟩

/-! ## Task Scheduler: ready-task selection (spec §4.1) -/

inductive TaskStatus where
  | pending
  | running
  | completed
  | failed
  | cancelled
  | paused
deriving DecidableEq, Repr

structure SchedTask where
  id : ℕ
  priority : ℕ
  createdAt : ℕ
  envId : ℕ
  status : TaskStatus
  readyAt : ℕ
deriving DecidableEq, Repr

/-- Modelled from the spec: a task is a candidate for a free worker slot
(§4.1) when it is `pending` (a retried task is re-enqueued `pending` with a
scheduled re-ready time, so retry-ready means `readyAt ≤ now`) and its
environment has no lease held by another task. -/
def eligible (leased : List ℕ) (now : ℕ) (t : SchedTask) : Bool :=
  t.status == .pending && Nat.ble t.readyAt now && !(leased.contains t.envId)

/-- Modelled from the spec: strict scheduling preference (§4.1) — higher
priority wins, ties broken by earliest creation timestamp (FIFO). -/
def beats (a b : SchedTask) : Bool :=
  Nat.blt b.priority a.priority ||
    (a.priority == b.priority && Nat.blt a.createdAt b.createdAt)

/-- Modelled from the spec: one step of the candidate scan — keep the better
of the best candidate so far and the next task, skipping ineligible tasks. -/
def chooseBest (leased : List ℕ) (now : ℕ) :
    Option SchedTask → SchedTask → Option SchedTask
  | none, t => if eligible leased now t then some t else none
  | some b, t =>
      if eligible leased now t then
        (if beats t b then some t else some b)
      else some b

/-- Modelled from the spec: the scheduling loop's candidate scan (§4.1) —
walk the ready set keeping the best eligible task seen so far. -/
def selectFrom (leased : List ℕ) (now : ℕ) :
    List SchedTask → Option SchedTask → Option SchedTask
  | [], best => best
  | t :: ts, best => selectFrom leased now ts (chooseBest leased now best t)

/-- Modelled from the spec: select the task to run on a free worker slot. -/
def selectNext (leased : List ℕ) (now : ℕ) (tasks : List SchedTask) : Option SchedTask :=
  selectFrom leased now tasks none

lemma beats_irrefl (a : SchedTask) : beats a a = false := by
  cases h : beats a a
  · rfl
  · exfalso
    simp only [beats, Nat.blt_eq, Bool.or_eq_true, Bool.and_eq_true,
      beq_iff_eq] at h
    omega

lemma beats_trans {a b c : SchedTask} (h1 : beats a b = true) (h2 : beats b c = true) :
    beats a c = true := by
  simp only [beats, Nat.blt_eq, Bool.or_eq_true, Bool.and_eq_true,
    decide_eq_true_eq, beq_iff_eq] at h1 h2 ⊢
  omega

lemma beats_asymm {a b : SchedTask} (h1 : beats a b = true) : beats b a = false := by
  cases hba : beats b a
  · rfl
  · have h3 := beats_trans h1 hba
    rw [beats_irrefl] at h3
    exact Bool.noConfusion h3

lemma chooseBest_eq {leased : List ℕ} {now : ℕ} {best : Option SchedTask}
    {a c : SchedTask} (h : chooseBest leased now best a = some c) :
    best = some c ∨ (c = a ∧ eligible leased now a = true) := by
  cases best with
  | none =>
    rw [chooseBest] at h
    by_cases ha : eligible leased now a = true
    · rw [if_pos ha] at h
      exact Or.inr ⟨(Option.some.inj h).symm, ha⟩
    · rw [if_neg ha] at h
      exact Option.noConfusion h
  | some b =>
    rw [chooseBest] at h
    by_cases ha : eligible leased now a = true
    · rw [if_pos ha] at h
      by_cases hab : beats a b = true
      · rw [if_pos hab] at h
        exact Or.inr ⟨(Option.some.inj h).symm, ha⟩
      · rw [if_neg hab] at h
        exact Or.inl h
    · rw [if_neg ha] at h
      exact Or.inl h

lemma chooseBest_some_cases (leased : List ℕ) (now : ℕ) (b a : SchedTask) :
    chooseBest leased now (some b) a = some b ∨
      (chooseBest leased now (some b) a = some a ∧ beats a b = true) := by
  rw [chooseBest]
  by_cases ha : eligible leased now a = true
  · rw [if_pos ha]
    by_cases hab : beats a b = true
    · rw [if_pos hab]
      exact Or.inr ⟨rfl, hab⟩
    · rw [if_neg hab]
      exact Or.inl rfl
  · rw [if_neg ha]
    exact Or.inl rfl

lemma chooseBest_elig_isSome {leased : List ℕ} {now : ℕ} (best : Option SchedTask)
    {a : SchedTask} (ha : eligible leased now a = true) :
    ∃ c, chooseBest leased now best a = some c := by
  cases best with
  | none =>
    rw [chooseBest, if_pos ha]
    exact ⟨a, rfl⟩
  | some b =>
    rw [chooseBest, if_pos ha]
    by_cases hab : beats a b = true
    · rw [if_pos hab]; exact ⟨a, rfl⟩
    · rw [if_neg hab]; exact ⟨b, rfl⟩

lemma selectFrom_some (leased : List ℕ) (now : ℕ) :
    ∀ (ts : List SchedTask) (b : SchedTask),
      (selectFrom leased now ts (some b)).isSome = true := by
  intro ts
  induction ts with
  | nil => intro b; rfl
  | cons a ts ih =>
    intro b
    rw [selectFrom]
    rcases chooseBest_some_cases leased now b a with hc | ⟨hc, _⟩ <;>
      · rw [hc]; exact ih _

lemma selectFrom_mem (leased : List ℕ) (now : ℕ) :
    ∀ (ts : List SchedTask) (best : Option SchedTask) (t : SchedTask),
      selectFrom leased now ts best = some t →
      (t ∈ ts ∧ eligible leased now t = true) ∨ best = some t := by
  intro ts
  induction ts with
  | nil => intro best t h; exact Or.inr h
  | cons a ts ih =>
    intro best t h
    rw [selectFrom] at h
    rcases ih _ _ h with ⟨hmem, helig⟩ | hbest
    · exact Or.inl ⟨List.mem_cons_of_mem _ hmem, helig⟩
    · rcases chooseBest_eq hbest with hb | ⟨rfl, ha⟩
      · exact Or.inr hb
      · exact Or.inl ⟨List.mem_cons_self _ _, ha⟩

lemma selectFrom_chain (leased : List ℕ) (now : ℕ) :
    ∀ (ts : List SchedTask) (b t : SchedTask),
      selectFrom leased now ts (some b) = some t →
      t = b ∨ beats t b = true := by
  intro ts
  induction ts with
  | nil =>
    intro b t h
    exact Or.inl (Option.some.inj h).symm
  | cons a ts ih =>
    intro b t h
    rw [selectFrom] at h
    rcases chooseBest_some_cases leased now b a with hc | ⟨hc, hab⟩
    · rw [hc] at h
      exact ih _ _ h
    · rw [hc] at h
      rcases ih _ _ h with rfl | hta
      · exact Or.inr hab
      · exact Or.inr (beats_trans hta hab)

lemma selectFrom_best (leased : List ℕ) (now : ℕ) :
    ∀ (ts : List SchedTask) (best : Option SchedTask) (t : SchedTask),
      selectFrom leased now ts best = some t →
      ∀ u ∈ ts, eligible leased now u = true → beats u t = false := by
  intro ts
  induction ts with
  | nil => intro best t _ u hu; exact absurd hu (List.not_mem_nil u)
  | cons a ts ih =>
    intro best t h u hu huel
    rw [selectFrom] at h
    rcases List.mem_cons.mp hu with rfl | hu
    · -- u is the head a; the accumulator now beats-or-is u
      cases best with
      | none =>
        rw [chooseBest, if_pos huel] at h
        rcases selectFrom_chain leased now ts _ _ h with rfl | hta
        · exact beats_irrefl t
        · exact beats_asymm hta
      | some b =>
        rw [chooseBest, if_pos huel] at h
        by_cases hab : beats u b = true
        · rw [if_pos hab] at h
          rcases selectFrom_chain leased now ts _ _ h with rfl | hta
          · exact beats_irrefl t
          · exact beats_asymm hta
        · rw [if_neg hab] at h
          have hab' : beats u b = false := by
            cases hx : beats u b
            · rfl
            · exact absurd hx hab
          rcases selectFrom_chain leased now ts _ _ h with rfl | htb
          · exact hab'
          · cases hut : beats u t
            · rfl
            · rw [← hab']
              exact (beats_trans hut htb).symm
    · -- u occurs in the tail
      exact ih _ _ h u hu huel

/-- Example task T1: priority 5, created first, on environment 10. -/
def exT1 : SchedTask := ⟨1, 5, 0, 10, .pending, 0⟩

/-- Example task T2: priority 9, created later, on environment 11. -/
def exT2 : SchedTask := ⟨2, 9, 1, 11, .pending, 0⟩

/-- C5: whenever a worker slot is free the scheduler selects an eligible
(pending/retry-ready, environment unleased) task of maximal priority, with
FIFO tie-break on creation time; a slot is filled whenever some task is
eligible; and in the Scenario-A instance (T1 priority 5, T2 priority 9,
different environments, one free slot) T2 is selected first. -/
theorem selectNext_spec :
    (∀ (leased : List ℕ) (now : ℕ) (tasks : List SchedTask) (t : SchedTask),
      selectNext leased now tasks = some t →
        t ∈ tasks ∧ eligible leased now t = true ∧
        ∀ u ∈ tasks, eligible leased now u = true →
          u.priority ≤ t.priority ∧
          (u.priority = t.priority → t.createdAt ≤ u.createdAt)) ∧
    (∀ (leased : List ℕ) (now : ℕ) (tasks : List SchedTask) (u : SchedTask),
      u ∈ tasks → eligible leased now u = true →
        (selectNext leased now tasks).isSome = true) ∧
    selectNext [] 0 [exT1, exT2] = some exT2 := by
  refine ⟨?_, ?_, ?_⟩
  · intro leased now tasks t h
    rcases selectFrom_mem leased now tasks none t h with ⟨hmem, helig⟩ | hbest
    · refine ⟨hmem, helig, ?_⟩
      intro u hu huel
      have hb := selectFrom_best leased now tasks none t h u hu huel
      have hb' : ¬ (t.priority < u.priority ∨
          (u.priority = t.priority ∧ u.createdAt < t.createdAt)) := by
        intro hc
        have hbt : beats u t = true := by
          simp only [beats, Nat.blt_eq, Bool.or_eq_true, Bool.and_eq_true,
            decide_eq_true_eq, beq_iff_eq]
          exact hc
        rw [hb] at hbt
        exact Bool.noConfusion hbt
      push_neg at hb'
      exact hb'
    · exact Option.noConfusion hbest
  · intro leased now tasks
    induction tasks with
    | nil =>
      intro u hu _
      exact absurd hu (List.not_mem_nil u)
    | cons a ts ih =>
      intro u hu huel
      rw [selectNext, selectFrom]
      rcases List.mem_cons.mp hu with rfl | hu'
      · obtain ⟨c, hc⟩ := chooseBest_elig_isSome none huel
        rw [hc]
        exact selectFrom_some leased now ts c
      · by_cases ha : eligible leased now a = true
        · obtain ⟨c, hc⟩ := chooseBest_elig_isSome none ha
          rw [hc]
          exact selectFrom_some leased now ts c
        · have hskip : chooseBest leased now none a = none := by
            rw [chooseBest, if_neg ha]
          rw [hskip]
          exact ih u hu' huel
  · rfl

/-- Witness for C5: instantiating the theorem at the Scenario-A tasks shows
the selected task T2 is eligible and at least as urgent as T1. -/
theorem selectNext_spec_witness :
    exT2 ∈ [exT1, exT2] ∧ eligible [] 0 exT2 = true ∧ exT1.priority ≤ exT2.priority :=
  ⟨(selectNext_spec.1 [] 0 [exT1, exT2] exT2 selectNext_spec.2.2).1,
   (selectNext_spec.1 [] 0 [exT1, exT2] exT2 selectNext_spec.2.2).2.1,
   ((selectNext_spec.1 [] 0 [exT1, exT2] exT2 selectNext_spec.2.2).2.2 exT1
      (List.mem_cons_self _ _) (by decide)).1⟩

/-! ## Task cancellation (spec §4.1) -/

def isTerminal : TaskStatus → Bool
  | .completed => true
  | .failed => true
  | .cancelled => true
  | _ => false

structure TaskCtl where
  status : TaskStatus
  cancelRequested : Bool
deriving DecidableEq, Repr

/-- Modelled from the spec: `cancel(taskId)` (§4.1) is not under `src/` (the
frontend only posts `/tasks/id/cancel`).  Per the spec: a `pending` task is
removed (terminal `cancelled`); a `running` (or `paused`) task gets a
cooperative cancellation flag observed at the next node boundary; the call
always succeeds idempotently and is a no-op on a task already terminal.
Returns the success flag together with the updated task. -/
def cancelTask (t : TaskCtl) : Bool × TaskCtl :=
  if isTerminal t.status then (true, t)
  else if t.status == .pending then (true, { t with status := .cancelled })
  else (true, { t with cancelRequested := true })

/-- C6: `cancel` always succeeds, is idempotent (cancelling twice leaves the
same state as cancelling once), and is a no-op on a task in a terminal state
(completed, failed or cancelled). -/
theorem cancel_idempotent (t : TaskCtl) :
    (cancelTask t).1 = true ∧
    cancelTask (cancelTask t).2 = cancelTask t ∧
    (isTerminal t.status = true → cancelTask t = (true, t)) := by
  obtain ⟨s, f⟩ := t
  cases s <;> cases f <;> decide

/-- Witness for C6 at a concrete terminal task: cancelling a completed task
succeeds and leaves it untouched, twice as well as once. -/
theorem cancel_idempotent_witness :
    (cancelTask ⟨.completed, false⟩).1 = true ∧
    cancelTask (cancelTask ⟨.completed, false⟩).2 = cancelTask ⟨.completed, false⟩ ∧
    cancelTask ⟨.completed, false⟩ = (true, ⟨.completed, false⟩) :=
  ⟨(cancel_idempotent ⟨.completed, false⟩).1,
   (cancel_idempotent ⟨.completed, false⟩).2.1,
   (cancel_idempotent ⟨.completed, false⟩).2.2 rfl⟩

/-! ## Flow Interpreter (spec §4.2)

The interpreter is not under `src/`; it is modelled from §4.2 with the node
types needed by the claims (leaf action, variable assignment/increment,
`whileLoop`, `exitLoop` — the AdsPower RPA node names from the design
document).  A task being stepped is `running` throughout; nodes live in an
arena addressed by index, per §9. -/

inductive FlowNode where
  | action (onSuccess : Option ℕ)
  | assign (name : String) (value : Int) (onSuccess : Option ℕ)
  | incr (name : String) (onSuccess : Option ℕ)
  | whileLt (name : String) (bound : Int) (bodyEntry : ℕ) (exitEdge : Option ℕ)
  | exitLoop
deriving DecidableEq, Repr

structure LoopCtx where
  loopNode : ℕ
  exitEdge : Option ℕ
deriving DecidableEq, Repr

structure ExecState where
  pointer : Option ℕ
  vars : String → Int
  loopStack : List LoopCtx
  progress : ℕ

inductive InterpError where
  | NoActiveLoop
deriving DecidableEq, Repr

/-- Modelled from the spec: §4.2 — task progress (0–100, §3) is
`current_node_index / total_reachable_nodes`, reported as a percentage
(100 once the flow completes). -/
def progressOf (flow : List FlowNode) (ptr : Option ℕ) : ℕ :=
  match ptr with
  | none => 100
  | some i => i * 100 / flow.length

def setVar (vars : String → Int) (name : String) (v : Int) : String → Int :=
  fun n => if n = name then v else vars n

/-- Advance the pointer along an edge and report the updated progress. -/
def advance (flow : List FlowNode) (s : ExecState) (next : Option ℕ) : ExecState :=
  { s with pointer := next, progress := progressOf flow next }

/-- Modelled from the spec: node dispatch of `step()` (§4.2): leaf actions
advance along the success edge; assignment nodes mutate the variable
environment; a `whileLoop` node pushes its loop context (once) and re-enters
the body while the condition holds, popping the context and taking the exit
edge when it no longer does; `exitLoop` pops the nearest loop context and
jumps to its exit edge, failing with `NoActiveLoop` on an empty stack. -/
def stepNode (flow : List FlowNode) (i : ℕ) (s : ExecState) :
    FlowNode → Except InterpError ExecState
  | .action next => .ok (advance flow s next)
  | .assign name v next =>
      .ok (advance flow { s with vars := setVar s.vars name v } next)
  | .incr name next =>
      .ok (advance flow { s with vars := setVar s.vars name (s.vars name + 1) } next)
  | .whileLt name bound body exitE =>
      if s.vars name < bound then
        .ok { s with pointer := some body,
                     loopStack :=
                       if s.loopStack.head? = some ⟨i, exitE⟩ then s.loopStack
                       else ⟨i, exitE⟩ :: s.loopStack,
                     progress := progressOf flow (some body) }
      else
        .ok { s with pointer := exitE,
                     loopStack :=
                       if s.loopStack.head? = some ⟨i, exitE⟩ then s.loopStack.tail
                       else s.loopStack,
                     progress := progressOf flow exitE }
  | .exitLoop =>
      match s.loopStack with
      | [] => .error .NoActiveLoop
      | c :: rest =>
          .ok { s with pointer := c.exitEdge, loopStack := rest,
                       progress := progressOf flow c.exitEdge }

/-- Execute the node at arena index `i` (a pointer past the arena is treated
as the path's end, defensively completing the task). -/
def stepAt (flow : List FlowNode) (s : ExecState) (i : ℕ) :
    Except InterpError ExecState :=
  match flow[i]? with
  | none => .ok (advance flow s none)
  | some node => stepNode flow i s node

/-- Modelled from the spec: `step()` (§4.2) executes exactly one node of the
running task, starting from the current node pointer. -/
def step (flow : List FlowNode) (s : ExecState) : Except InterpError ExecState :=
  match s.pointer with
  | none => .ok (advance flow s none)
  | some i => stepAt flow s i

/-- The sequence of progress values reported while the task runs (one entry
per executed node, §4.2), up to the given fuel. -/
def runTrace (flow : List FlowNode) : ℕ → ExecState → List ℕ
  | 0, _ => []
  | fuel + 1, s =>
    match s.pointer with
    | none => []
    | some _ =>
      match step flow s with
      | .error _ => []
      | .ok s' => s'.progress :: runTrace flow fuel s'

lemma step_ptr_none {flow : List FlowNode} {s : ExecState}
    (hp : s.pointer = none) : step flow s = .ok (advance flow s none) := by
  rw [step, hp]

lemma step_ptr_some {flow : List FlowNode} {s : ExecState} {i : ℕ}
    (hp : s.pointer = some i) : step flow s = stepAt flow s i := by
  rw [step, hp]

lemma stepAt_oob {flow : List FlowNode} {s : ExecState} {i : ℕ}
    (hn : flow[i]? = none) : stepAt flow s i = .ok (advance flow s none) := by
  rw [stepAt, hn]

lemma stepAt_node {flow : List FlowNode} {s : ExecState} {i : ℕ} {node : FlowNode}
    (hn : flow[i]? = some node) : stepAt flow s i = stepNode flow i s node := by
  rw [stepAt, hn]

/-- C8: stepping a break/exit-loop node fails with `NoActiveLoop` exactly when
the loop-control stack is empty; otherwise it pops the nearest loop context
and jumps to that loop's exit edge. -/
theorem step_exitLoop (flow : List FlowNode) (s : ExecState) (i : ℕ)
    (hp : s.pointer = some i) (hn : flow[i]? = some .exitLoop) :
    (s.loopStack = [] → step flow s = .error .NoActiveLoop) ∧
    (∀ c rest, s.loopStack = c :: rest →
      step flow s = .ok { s with pointer := c.exitEdge,
                                 loopStack := rest,
                                 progress := progressOf flow c.exitEdge }) := by
  constructor
  · intro hstack
    rw [step_ptr_some hp, stepAt_node hn, stepNode, hstack]
  · intro c rest hstack
    rw [step_ptr_some hp, stepAt_node hn, stepNode, hstack]

/-- A one-node flow whose single node is an `exitLoop`. -/
def exFlowBreak : List FlowNode := [.exitLoop]

/-- Execution state at the `exitLoop` node with an empty loop stack. -/
def exStateNoLoop : ExecState := ⟨some 0, fun _ => 0, [], 0⟩

/-- Execution state at the `exitLoop` node inside a loop whose exit edge is
node 3. -/
def exStateLoop : ExecState := ⟨some 0, fun _ => 0, [⟨5, some 3⟩], 0⟩

/-- Witness for C8: with an empty stack the step fails with `NoActiveLoop`;
with an active loop it pops the context and jumps to the loop's exit edge. -/
theorem step_exitLoop_witness :
    step exFlowBreak exStateNoLoop = .error .NoActiveLoop ∧
    step exFlowBreak exStateLoop =
      .ok { exStateLoop with pointer := some 3,
                             loopStack := [],
                             progress := progressOf exFlowBreak (some 3) } :=
  ⟨(step_exitLoop exFlowBreak exStateNoLoop 0 rfl rfl).1 rfl,
   (step_exitLoop exFlowBreak exStateLoop 0 rfl rfl).2 ⟨5, some 3⟩ [] rfl⟩

/-- Flow used for the progress counterexample: `i := 0`; `while i < 2` run the
body (node 2, which increments `i` and loops back); on exit go to node 3, a
final action with no outgoing edge. -/
def demoFlow : List FlowNode :=
  [.assign "i" 0 (some 1),
   .whileLt "i" 2 2 (some 3),
   .incr "i" (some 1),
   .action none]

/-- Initial state of the demo flow at its start node. -/
def demoInit : ExecState := ⟨some 0, fun _ => 0, [], 0⟩

/-- State after the first step of the demo flow. -/
def demoS1 : ExecState :=
  ⟨some 1, setVar demoInit.vars "i" 0, [], progressOf demoFlow (some 1)⟩

/-- C7 counterexample: executing the demo flow (a loop with a back-edge), the
reported progress sequence while running starts `[25, 50, 25, …]` — the value
reported after the third step is smaller than after the second, so the
progress reported by §4.2's formula is not non-decreasing while `running`. -/
theorem progress_decrease_counterexample :
    runTrace demoFlow 8 demoInit = [25, 50, 25, 50, 25, 75, 100] ∧
    (runTrace demoFlow 8 demoInit).get? 1 = some 50 ∧
    (runTrace demoFlow 8 demoInit).get? 2 = some 25 ∧
    ¬ (50 ≤ 25) := by
  refine ⟨by decide, by decide, by decide, by decide⟩

/-- C7 (amended): each interpreter step reports progress equal to the new
node index over the node count (100 on completion), so progress is
non-decreasing across every step that does not move the pointer to a
lower-indexed node — in particular along loop-free (index-monotone)
executions; only a loop back-edge can decrease it. -/
theorem step_progress (flow : List FlowNode) (s s' : ExecState)
    (h : step flow s = .ok s') :
    s'.progress = progressOf flow s'.pointer ∧
    (∀ i j : ℕ, s.pointer = some i → s'.pointer = some j → i ≤ j →
      s.progress = progressOf flow s.pointer → s.progress ≤ s'.progress) := by
  have h1 : s'.progress = progressOf flow s'.pointer := by
    cases hp : s.pointer with
    | none =>
      rw [step_ptr_none hp] at h
      injection h with h'
      rw [← h']
      rfl
    | some i =>
      rw [step_ptr_some hp] at h
      cases hn : flow[i]? with
      | none =>
        rw [stepAt_oob hn] at h
        injection h with h'
        rw [← h']
        rfl
      | some node =>
        rw [stepAt_node hn] at h
        cases node with
        | action next =>
          rw [stepNode] at h
          injection h with h'
          rw [← h']
          rfl
        | assign name v next =>
          rw [stepNode] at h
          injection h with h'
          rw [← h']
          rfl
        | incr name next =>
          rw [stepNode] at h
          injection h with h'
          rw [← h']
          rfl
        | whileLt name bound body exitE =>
          rw [stepNode] at h
          by_cases hc : s.vars name < bound
          · rw [if_pos hc] at h
            injection h with h'
            rw [← h']
          · rw [if_neg hc] at h
            injection h with h'
            rw [← h']
        | exitLoop =>
          rw [stepNode] at h
          cases hstack : s.loopStack with
          | nil =>
            rw [hstack] at h
            exact Except.noConfusion h
          | cons c rest =>
            rw [hstack] at h
            injection h with h'
            rw [← h']
  refine ⟨h1, ?_⟩
  intro i j hi hj hij hsp
  rw [hsp, hi, h1, hj]
  show i * 100 / flow.length ≤ j * 100 / flow.length
  exact Nat.div_le_div_right (Nat.mul_le_mul_right 100 hij)

/-- Witness for C7's amended theorem: the first demo step moves the pointer
from node 0 to node 1 and progress rises accordingly. -/
theorem step_progress_witness :
    demoS1.progress = progressOf demoFlow demoS1.pointer ∧
    demoInit.progress ≤ demoS1.progress :=
  ⟨(step_progress demoFlow demoInit demoS1 rfl).1,
   (step_progress demoFlow demoInit demoS1 rfl).2 0 1 rfl rfl (by decide) (by decide)⟩

/-! ## WebSocket store (`src/unnamed/part_008`) -/

structure WsMessage where
  type : String
  data : String
  timestamp : ℕ
deriving DecidableEq, Repr

structure TaskUpdate where
  task_id : ℕ
  status : String
  progress : Option ℕ
  message : Option String
  error : Option String
deriving DecidableEq, Repr

/-- The websocket slice state (`part_008` lines 23–39): the live connection is
modelled by its presence (`hasConnection`), `taskUpdates` maps a task id to
its stored update list (absent key = empty list), and the `subscriptions` set
is a duplicate-free list. -/
structure WsState where
  hasConnection : Bool
  isConnected : Bool
  connectionId : Option String
  messages : List WsMessage
  taskUpdates : ℕ → List TaskUpdate
  subscriptions : List ℕ

def initialWsState : WsState := ⟨false, false, none, [], fun _ => [], []⟩

inductive WsAction where
  | setConnection (payload : Bool)
  | setConnectionId (id : String)
  | addMessage (m : WsMessage)
  | addTaskUpdate (taskId : ℕ) (u : TaskUpdate)
  | addSubscription (id : ℕ)
  | removeSubscription (id : ℕ)
  | clearMessages
  | clearTaskUpdates (taskId : ℕ)
deriving DecidableEq, Repr

/-- JS `slice(-n)` on an array of length ≥ n: the last `n` elements. -/
def lastN (n : ℕ) (l : List α) : List α := l.drop (l.length - n)

/-- The websocket reducer (`part_008` lines 44–86): `addMessage` pushes and
keeps only the most recent 100 messages; `addTaskUpdate` pushes onto the
per-task list and keeps only its most recent 50 updates; `setConnection null`
clears the connection id and subscriptions; `clearMessages` and
`clearTaskUpdates` empty the respective histories. -/
def wsReduce (s : WsState) (a : WsAction) : WsState :=
  match a with
  | .setConnection p =>
      { s with hasConnection := p,
               isConnected := p,
               connectionId := if p then s.connectionId else none,
               subscriptions := if p then s.subscriptions else [] }
  | .setConnectionId id => { s with connectionId := some id }
  | .addMessage m =>
      let l := s.messages ++ [m]
      { s with messages := if 100 < l.length then lastN 100 l else l }
  | .addTaskUpdate taskId u =>
      let l := s.taskUpdates taskId ++ [u]
      { s with taskUpdates := fun t =>
          if t = taskId then (if 50 < l.length then lastN 50 l else l)
          else s.taskUpdates t }
  | .addSubscription id =>
      { s with subscriptions :=
          if id ∈ s.subscriptions then s.subscriptions else s.subscriptions ++ [id] }
  | .removeSubscription id =>
      { s with subscriptions := s.subscriptions.filter (fun x => !(x == id)) }
  | .clearMessages => { s with messages := [] }
  | .clearTaskUpdates taskId =>
      { s with taskUpdates := fun t => if t = taskId then [] else s.taskUpdates t }

/-- Ghost log: the full arrival-ordered message history since the last
`clearMessages`. -/
def msgStep (log : List WsMessage) : WsAction → List WsMessage
  | .addMessage m => log ++ [m]
  | .clearMessages => []
  | _ => log

def msgLog (acts : List WsAction) : List WsMessage := acts.foldl msgStep []

/-- Ghost log: the full arrival-ordered update history of one task since its
last `clearTaskUpdates`. -/
def updStep (tid : ℕ) (log : List TaskUpdate) : WsAction → List TaskUpdate
  | .addTaskUpdate t u => if tid = t then log ++ [u] else log
  | .clearTaskUpdates t => if tid = t then [] else log
  | _ => log

def updLog (tid : ℕ) (acts : List WsAction) : List TaskUpdate :=
  acts.foldl (updStep tid) []

def wsRun (acts : List WsAction) : WsState := acts.foldl wsReduce initialWsState

lemma lastN_length_le (n : ℕ) (l : List α) : (lastN n l).length ≤ n := by
  rw [lastN, List.length_drop]
  omega

lemma lastN_of_le {n : ℕ} {l : List α} (h : l.length ≤ n) : lastN n l = l := by
  rw [lastN, Nat.sub_eq_zero_of_le h, List.drop_zero]

lemma lastN_append_one (n : ℕ) (l : List α) (m : α) :
    lastN n (lastN n l ++ [m]) = lastN n (l ++ [m]) := by
  have hd : l.length - n ≤ l.length := Nat.sub_le _ _
  unfold lastN
  rw [← List.drop_append_of_le_length hd, List.drop_drop]
  congr 1
  simp only [List.length_drop, List.length_append]
  omega

lemma lastN_push (n : ℕ) (log : List α) (m : α) :
    (if n < (lastN n log ++ [m]).length then lastN n (lastN n log ++ [m])
     else lastN n log ++ [m]) = lastN n (log ++ [m]) := by
  by_cases hlen : n < (lastN n log ++ [m]).length
  · rw [if_pos hlen, lastN_append_one]
  · rw [if_neg hlen]
    rw [List.length_append, lastN, List.length_drop] at hlen
    have hlog : log.length ≤ n := by
      simp only [List.length_singleton] at hlen
      omega
    have hlog1 : (log ++ [m]).length ≤ n := by
      rw [List.length_append, List.length_singleton]
      simp only [List.length_singleton] at hlen
      omega
    rw [lastN_of_le hlog, lastN_of_le hlog1]

lemma wsReduce_msg_inv {s : WsState} {log : List WsMessage} (a : WsAction)
    (hs : s.messages = lastN 100 log) :
    (wsReduce s a).messages = lastN 100 (msgStep log a) := by
  cases a with
  | setConnection p => exact hs
  | setConnectionId id => exact hs
  | addMessage m =>
    show (if 100 < (s.messages ++ [m]).length then lastN 100 (s.messages ++ [m])
          else s.messages ++ [m]) = lastN 100 (log ++ [m])
    rw [hs]
    exact lastN_push 100 log m
  | addTaskUpdate taskId u => exact hs
  | addSubscription id => exact hs
  | removeSubscription id => exact hs
  | clearMessages => rfl
  | clearTaskUpdates taskId => exact hs

lemma wsReduce_upd_inv {s : WsState} {tid : ℕ} {ulog : List TaskUpdate}
    (a : WsAction) (hs : s.taskUpdates tid = lastN 50 ulog) :
    (wsReduce s a).taskUpdates tid = lastN 50 (updStep tid ulog a) := by
  cases a with
  | setConnection p => exact hs
  | setConnectionId id => exact hs
  | addMessage m => exact hs
  | addTaskUpdate taskId u =>
    show (if tid = taskId then
            (if 50 < (s.taskUpdates taskId ++ [u]).length
             then lastN 50 (s.taskUpdates taskId ++ [u])
             else s.taskUpdates taskId ++ [u])
          else s.taskUpdates tid) =
        lastN 50 (if tid = taskId then ulog ++ [u] else ulog)
    by_cases htt : tid = taskId
    · subst htt
      rw [if_pos rfl, if_pos rfl, hs]
      exact lastN_push 50 ulog u
    · rw [if_neg htt, if_neg htt]
      exact hs
  | addSubscription id => exact hs
  | removeSubscription id => exact hs
  | clearMessages => exact hs
  | clearTaskUpdates taskId =>
    show (if tid = taskId then [] else s.taskUpdates tid) =
        lastN 50 (if tid = taskId then [] else ulog)
    by_cases htt : tid = taskId
    · rw [if_pos htt, if_pos htt]
      rfl
    · rw [if_neg htt, if_neg htt]
      exact hs

lemma wsRun_append (acts : List WsAction) (a : WsAction) :
    wsRun (acts ++ [a]) = wsReduce (wsRun acts) a := by
  rw [wsRun, List.foldl_append]
  rfl

lemma msgLog_append (acts : List WsAction) (a : WsAction) :
    msgLog (acts ++ [a]) = msgStep (msgLog acts) a := by
  rw [msgLog, List.foldl_append]
  rfl

lemma updLog_append (tid : ℕ) (acts : List WsAction) (a : WsAction) :
    updLog tid (acts ++ [a]) = updStep tid (updLog tid acts) a := by
  rw [updLog, List.foldl_append]
  rfl

lemma wsRun_messages (acts : List WsAction) :
    (wsRun acts).messages = lastN 100 (msgLog acts) := by
  induction acts using List.reverseRecOn with
  | nil => rfl
  | append_singleton acts a ih =>
    rw [wsRun_append, msgLog_append]
    exact wsReduce_msg_inv a ih

lemma wsRun_updates (acts : List WsAction) (tid : ℕ) :
    (wsRun acts).taskUpdates tid = lastN 50 (updLog tid acts) := by
  induction acts using List.reverseRecOn with
  | nil => rfl
  | append_singleton acts a ih =>
    rw [wsRun_append, updLog_append]
    exact wsReduce_upd_inv a ih

/-- C9: after any sequence of websocket store actions, the stored messages are
exactly the most recent (at most) 100 of the arrival-ordered message history,
and each task's stored updates are exactly the most recent (at most) 50 of
that task's arrival-ordered update history — older entries are dropped in
arrival order, and the lengths never exceed 100 resp. 50. -/
theorem websocket_history_bounded (acts : List WsAction) :
    (wsRun acts).messages = lastN 100 (msgLog acts) ∧
    (wsRun acts).messages.length ≤ 100 ∧
    ∀ tid : ℕ, (wsRun acts).taskUpdates tid = lastN 50 (updLog tid acts) ∧
      ((wsRun acts).taskUpdates tid).length ≤ 50 :=
  ⟨wsRun_messages acts,
   by rw [wsRun_messages acts]; exact lastN_length_le _ _,
   fun tid => ⟨wsRun_updates acts tid,
     by rw [wsRun_updates acts tid]; exact lastN_length_le _ _⟩⟩

/-! ## WebSocket reconnection (`src/unnamed/part_009`) -/

/-- `maxReconnectAttempts` (`part_009` line 26). -/
def maxReconnectAttempts : ℕ := 5

/-- The `ws.onclose` handler (`part_009` lines 106–121): while the user is
authenticated and fewer than `maxReconnectAttempts` reconnection attempts have
been made, schedule a reconnect after `2 ^ attempts * 1000` milliseconds (the
timer callback increments the counter before reconnecting); otherwise no
reconnect is scheduled (once the counter has reached the maximum, an error
message is shown instead).  Returns the scheduled delay, if any, and the
counter value after the timer fires. -/
def onCloseReconnect (isAuthenticated : Bool) (attempts : ℕ) : Option ℕ × ℕ :=
  if isAuthenticated = true ∧ attempts < maxReconnectAttempts then
    (some (2 ^ attempts * 1000), attempts + 1)
  else
    (none, attempts)

/-- The delays of the reconnection attempts scheduled during a run of `k`
consecutive failed connection attempts (each attempt's socket closes again
without a successful `onopen`, which is the only place the counter resets). -/
def reconnectDelays : ℕ → ℕ → List ℕ
  | 0, _ => []
  | k + 1, attempts =>
    match onCloseReconnect true attempts with
    | (none, _) => []
    | (some d, a) => d :: reconnectDelays k a

lemma onCloseReconnect_lt {a : ℕ} (h : a < maxReconnectAttempts) :
    onCloseReconnect true a = (some (2 ^ a * 1000), a + 1) := by
  rw [onCloseReconnect, if_pos ⟨rfl, h⟩]

lemma onCloseReconnect_ge {a : ℕ} (h : maxReconnectAttempts ≤ a) :
    onCloseReconnect true a = (none, a) := by
  rw [onCloseReconnect, if_neg]
  intro hc
  omega

lemma reconnectDelays_closed (k a : ℕ) :
    reconnectDelays k a =
      (List.range (min k (maxReconnectAttempts - a))).map
        (fun n => 2 ^ (a + n) * 1000) := by
  induction k generalizing a with
  | zero => simp [reconnectDelays]
  | succ k ih =>
    by_cases ha : a < maxReconnectAttempts
    · rw [reconnectDelays, onCloseReconnect_lt ha]
      show 2 ^ a * 1000 :: reconnectDelays k (a + 1) =
        (List.range (min (k + 1) (maxReconnectAttempts - a))).map
          (fun n => 2 ^ (a + n) * 1000)
      rw [ih (a + 1)]
      have hmin : min (k + 1) (maxReconnectAttempts - a) =
          (min k (maxReconnectAttempts - (a + 1))) + 1 := by omega
      rw [hmin, List.range_succ_eq_map, List.map_cons, List.map_map]
      have hhead : 2 ^ a * 1000 = (fun n => 2 ^ (a + n) * 1000) 0 := by
        show 2 ^ a * 1000 = 2 ^ (a + 0) * 1000
        rw [Nat.add_zero]
      have htail : (List.range (min k (maxReconnectAttempts - (a + 1)))).map
            (fun n => 2 ^ (a + 1 + n) * 1000) =
          (List.range (min k (maxReconnectAttempts - (a + 1)))).map
            ((fun n => 2 ^ (a + n) * 1000) ∘ Nat.succ) := by
        apply List.map_congr_left
        intro n _
        simp only [Function.comp]
        have hn : a + 1 + n = a + (n + 1) := by omega
        rw [hn]
      exact congrArg₂ List.cons hhead htail
    · rw [reconnectDelays, onCloseReconnect_ge (by omega)]
      have hmin : min (k + 1) (maxReconnectAttempts - a) = 0 := by omega
      rw [hmin]
      rfl

/-- C10: when the socket closes while authenticated, at most
`maxReconnectAttempts = 5` reconnection attempts are scheduled, the n-th
attempt (n from 0) after a delay of `2 ^ n * 1000` milliseconds, and once the
counter has reached 5 failed attempts the close handler never schedules a
reconnect again. -/
theorem reconnect_bounded (k : ℕ) :
    reconnectDelays k 0 =
      (List.range (min k maxReconnectAttempts)).map (fun n => 2 ^ n * 1000) ∧
    (reconnectDelays k 0).length ≤ maxReconnectAttempts ∧
    ∀ a : ℕ, maxReconnectAttempts ≤ a → onCloseReconnect true a = (none, a) := by
  refine ⟨?_, ?_, fun a ha => onCloseReconnect_ge ha⟩
  · rw [reconnectDelays_closed k 0, Nat.sub_zero]
    apply List.map_congr_left
    intro n _
    rw [Nat.zero_add]
  · rw [reconnectDelays_closed k 0]
    rw [List.length_map, List.length_range]
    omega

/-- Witness for C10: seven consecutive failed attempts yield exactly the five
delays 1s, 2s, 4s, 8s, 16s, and the handler schedules nothing at counter 5. -/
theorem reconnect_bounded_witness :
    reconnectDelays 7 0 = [1000, 2000, 4000, 8000, 16000] ∧
    (reconnectDelays 7 0).length ≤ maxReconnectAttempts ∧
    onCloseReconnect true 5 = (none, 5) :=
  ⟨(reconnect_bounded 7).1.trans (by decide),
   (reconnect_bounded 7).2.1,
   (reconnect_bounded 7).2.2 5 (by decide)⟩

end XM
